import Mathlib

/-!
Verification development for a Donchian-channel trading system consisting of a
backtest engine (donchian.py), a live trading bot (trading_bot.py) and a runs
trend indicator (runs_indicator.py).  Prices and signal values are modelled as
rationals; a pandas NaN is modelled as `none` of an `Option` type.
-/

namespace DonchianSpec

/- ===================== generic list helpers ===================== -/

/-- Maximum of a list of rationals, `none` on the empty list
(models `pandas.rolling(...).max()` applied to a complete window). -/
def listMax : List ℚ → Option ℚ
  | [] => none
  | x :: xs =>
    match listMax xs with
    | none => some x
    | some m => some (max x m)

/-- Minimum of a list of rationals, `none` on the empty list. -/
def listMin : List ℚ → Option ℚ
  | [] => none
  | x :: xs =>
    match listMin xs with
    | none => some x
    | some m => some (min x m)

/-- The window `xs[lo : lo+len]` of a price series. -/
def windowSlice (xs : List ℚ) (lo len : ℕ) : List ℚ :=
  (xs.drop lo).take len

/-- `series.rolling(lookback - 1, min_periods=lookback - 1).max().shift(1)`
evaluated at position `i`: the maximum of the `lookback - 1` entries strictly
before bar `i`; `none` (NaN) while the window is incomplete. -/
def upperAt (xs : List ℚ) (lookback i : ℕ) : Option ℚ :=
  if lookback - 1 ≤ i then
    listMax (windowSlice xs (i - (lookback - 1)) (lookback - 1))
  else none

/-- `series.rolling(lookback - 1, min_periods=lookback - 1).min().shift(1)`
evaluated at position `i`. -/
def lowerAt (xs : List ℚ) (lookback i : ℕ) : Option ℚ :=
  if lookback - 1 ≤ i then
    listMin (windowSlice xs (i - (lookback - 1)) (lookback - 1))
  else none

/- ===================== donchian.py : donchian_breakout ===================== -/

/-- `close > upper` at bar `i`; a comparison against NaN is `False` in pandas. -/
def breachUpper (xs : List ℚ) (lookback i : ℕ) : Bool :=
  match upperAt xs lookback i with
  | some u => decide (u < xs.getD i 0)
  | none => false

/-- `close < lower` at bar `i`; a comparison against NaN is `False` in pandas. -/
def breachLower (xs : List ℚ) (lookback i : ℕ) : Bool :=
  match lowerAt xs lookback i with
  | some l => decide (xs.getD i 0 < l)
  | none => false

/-- The raw (pre-ffill) signal column of `donchian_breakout`: the code first
assigns 1 where `close > upper`, then 0 where `close < lower` (the later
assignment wins on overlap), and leaves NaN elsewhere. -/
def rawSignal (xs : List ℚ) (lookback i : ℕ) : Option ℚ :=
  if breachLower xs lookback i then some 0
  else if breachUpper xs lookback i then some 1
  else none

/-- `Series.ffill()` with the last seen value carried in `last`
(`none` when nothing has been seen yet, so leading NaNs stay NaN). -/
def ffillAux (last : Option ℚ) : List (Option ℚ) → List (Option ℚ)
  | [] => []
  | none :: rest => last :: ffillAux last rest
  | some v :: rest => some v :: ffillAux (some v) rest

/-- `df['signal'].ffill()`. -/
def ffill (xs : List (Option ℚ)) : List (Option ℚ) :=
  ffillAux none xs

/-- `if not df.empty and pd.isna(df['signal'].iloc[0]): df['signal'].iloc[0] = 0`. -/
def patchFirst : List (Option ℚ) → List (Option ℚ)
  | none :: rest => some 0 :: rest
  | other => other

/-- `df['signal'].fillna(0)`. -/
def fillna0 (xs : List (Option ℚ)) : List ℚ :=
  xs.map (fun o => o.getD 0)

/-- The signal column produced by `donchian_breakout(df, lookback)`
(donchian.py lines 84-93) on the close series `xs`. -/
def donchian_breakout (xs : List ℚ) (lookback : ℕ) : List ℚ :=
  fillna0 (patchFirst (ffill ((List.range xs.length).map (rawSignal xs lookback))))

example : donchian_breakout [100, 101, 102, 99, 98, 97, 103, 104] 4 =
    [0, 0, 0, 0, 0, 0, 1, 1] := by decide

example : donchian_breakout [100, 110, 120, 90, 95] 3 = [0, 0, 1, 0, 0] := by decide

/- ===================== donchian.py : get_trades_from_signal ===================== -/

/-- A completed long trade record, as appended to `long_trades`.
Timestamps are modelled as naturals (pandas timestamps are totally ordered). -/
structure Trade where
  entry_time : ℕ
  entry_price : ℚ
  exit_time : ℕ
  exit_price : ℚ
deriving DecidableEq, Repr

/-- The entry branch of the scan in `get_trades_from_signal` (donchian.py
lines 103-108): on a transition to signal 1, a still-open trade — in the
source a list still carrying the sentinels `-1`/NaN in its exit slots, which
`Option` models — is closed at the previous bar and appended, and a new trade
is opened at the current bar. -/
def tradesEntry (idx : List ℕ) (cl : List ℚ) (i : ℕ) (cur lastSig : ℚ)
    (openTr : Option (ℕ × ℚ)) (acc : List Trade) : List Trade × Option (ℕ × ℚ) :=
  if cur = 1 ∧ lastSig ≠ 1 then
    (match openTr with
      | some (et, ep) => acc ++ [⟨et, ep, idx.getD (i - 1) 0, cl.getD (i - 1) 0⟩]
      | none => acc,
     some (idx.getD i 0, cl.getD i 0))
  else (acc, openTr)

/-- The exit branch of the scan (donchian.py lines 109-114): on a transition
from signal 1 to 0, the open trade is closed at the current bar and appended. -/
def tradesExit (idx : List ℕ) (cl : List ℚ) (i : ℕ) (cur lastSig : ℚ)
    (s1 : List Trade × Option (ℕ × ℚ)) : List Trade × Option (ℕ × ℚ) :=
  if cur = 0 ∧ lastSig = 1 then
    (match s1.2 with
      | some (et, ep) => s1.1 ++ [⟨et, ep, idx.getD i 0, cl.getD i 0⟩]
      | none => s1.1,
     none)
  else s1

/-- One iteration of the `for i in range(len(data))` loop: the entry branch
followed by the exit branch (both conditions are tested each iteration). -/
def tradesStep (idx : List ℕ) (cl : List ℚ) (i : ℕ) (cur lastSig : ℚ)
    (openTr : Option (ℕ × ℚ)) (acc : List Trade) : List Trade × Option (ℕ × ℚ) :=
  tradesExit idx cl i cur lastSig (tradesEntry idx cl i cur lastSig openTr acc)

/-- The scan loop of `get_trades_from_signal` (donchian.py lines 101-115),
recursing on the unprocessed suffix of the signal series; `i` is the current
position, `lastSig` the previous signal value (initially `0.0`), and `openTr`
the pending open trade `(entry_time, entry_price)`.  Returns the accumulated
trade list and the open trade left at the end of the scan. -/
def tradesLoop (idx : List ℕ) (cl : List ℚ) :
    List ℚ → ℕ → ℚ → Option (ℕ × ℚ) → List Trade → List Trade × Option (ℕ × ℚ)
  | [], _, _, openTr, acc => (acc, openTr)
  | cur :: rest, i, lastSig, openTr, acc =>
    tradesLoop idx cl rest (i + 1) cur
      (tradesStep idx cl i cur lastSig openTr acc).2
      (tradesStep idx cl i cur lastSig openTr acc).1

/-- `get_trades_from_signal(data, signal)` (donchian.py lines 95-129) restricted
to the long-trade list it builds: scan the signal, then close a still-open
trade synthetically at the last bar (`idx[-1]`, `close_arr[-1]`; the source
guard `open_trade[2] == -1` always holds for an open trade since its exit slot
is only ever written when it is closed and appended).  The trades are appended
in scan order, which is also the order of the sorted `all_trades` frame. -/
def get_trades_from_signal (idx : List ℕ) (cl : List ℚ) (sig : List ℚ) : List Trade :=
  match tradesLoop idx cl sig 0 0 none [] with
  | (acc, none) => acc
  | (acc, some (et, ep)) =>
      acc ++ [⟨et, ep, idx.getD (idx.length - 1) 0, cl.getD (cl.length - 1) 0⟩]

example : get_trades_from_signal [0, 1, 2, 3] [10, 11, 12, 13] [0, 1, 1, 0] =
    [⟨1, 11, 3, 13⟩] := by decide

example : get_trades_from_signal [0, 1, 2] [10, 11, 12] [0, 1, 1] =
    [⟨1, 11, 2, 12⟩] := by decide

/- ===================== donchian.py : calculate_sortino_ratio ===================== -/

/-- `Series.mean()`. -/
def seriesMean (xs : List ℚ) : ℚ :=
  xs.sum / (xs.length : ℚ)

/-- The square of the sample standard deviation `Series.std()` (ddof = 1),
which is exactly representable over ℚ while the standard deviation itself
is an irrational square root. -/
def sampleVar (xs : List ℚ) : ℚ :=
  (xs.map (fun x => (x - seriesMean xs) * (x - seriesMean xs))).sum / ((xs.length : ℚ) - 1)

/-- Result of the Sortino computation.  `val num dvar` denotes the finite float
`num / Real.sqrt dvar` where `dvar > 0` is the sample variance of the downside
returns (so `Real.sqrt dvar` is their sample standard deviation);
`nan` and `inf` are the float NaN and `np.inf` results. -/
inductive SortinoResult where
  | nan
  | inf
  | val (num : ℚ) (dvar : ℚ)
deriving DecidableEq, Repr

/-- `calculate_sortino_ratio(returns_series, risk_free_rate, target_return)`
(donchian.py lines 140-151).  `returns.length < 2` covers the source's
`returns_series.empty or len(returns_series) < 2`; a sample standard deviation
is NaN exactly when there are fewer than two downside observations and zero
exactly when the sample variance is zero. -/
def calculate_sortino_ratio (returns : List ℚ) (risk_free_rate target_return : ℚ) :
    SortinoResult :=
  if returns.length < 2 then .nan
  else
    let negative_returns := returns.filter (fun r => r < target_return)
    if negative_returns.isEmpty then .inf
    else if negative_returns.length < 2 then .nan
    else if sampleVar negative_returns = 0 then .nan
    else .val (seriesMean returns - risk_free_rate) (sampleVar negative_returns)

example : calculate_sortino_ratio [1, 2] 0 0 = .inf := by decide
example : calculate_sortino_ratio [1, -1] 0 0 = .nan := by decide
example : calculate_sortino_ratio [1, -1, -2] 0 0 =
    .val ((-2 : ℚ) / 3) (1 / 2) := by
  norm_num [calculate_sortino_ratio, seriesMean, sampleVar, List.filter]

/- ===================== trading_bot.py : calculate_donchian_signal ===================== -/

/-- One OHLCV bar as used by the live bot (open and volume are never read). -/
structure Candle where
  high : ℚ
  low : ℚ
  close : ℚ
deriving DecidableEq, Repr

/-- The outcome of `calculate_donchian_signal(df, lookback)` distinguished by
the code path taken; in the source `buy` is the return value 1, `sell` is 0,
and the other three are all the return value `None` (told apart only by the
log message emitted on each path). -/
inductive LiveSignal where
  | insufficientData
  | bandsNotReady
  | buy
  | sell
  | hold
deriving DecidableEq, Repr

/-- The `int | None` value actually returned by the Python function. -/
def LiveSignal.toValue : LiveSignal → Option ℚ
  | .buy => some 1
  | .sell => some 0
  | _ => none

/-- `calculate_donchian_signal(df, lookback)` (trading_bot.py lines 369-387):
guard `len(df) < lookback`, then the final bar's channel computed from the
rolling max of `high` and rolling min of `low` over the prior `lookback - 1`
bars (`.shift(1).iloc[-1]`), compared with the latest close. -/
def calculate_donchian_signal (df : List Candle) (lookback : ℕ) : LiveSignal :=
  if df.length < lookback then .insufficientData
  else
    match upperAt (df.map Candle.high) lookback (df.length - 1),
          lowerAt (df.map Candle.low) lookback (df.length - 1) with
    | some upper_band, some lower_band =>
        let latest_close := (df.map Candle.close).getD (df.length - 1) 0
        if upper_band < latest_close then .buy
        else if latest_close < lower_band then .sell
        else .hold
    | _, _ => .bandsNotReady

example : calculate_donchian_signal
    [⟨5, 5, 5⟩, ⟨6, 4, 5⟩, ⟨7, 7, 7⟩] 3 = .buy := by decide
example : calculate_donchian_signal [⟨5, 5, 5⟩] 3 = .insufficientData := by decide

/- ===================== trading_bot.py : check_and_trade ===================== -/

/-- `MIN_BTC_HOLDING = 0.00005` (trading_bot.py line 365). -/
def MIN_BTC_HOLDING : ℚ := 5 / 100000

/-- `MIN_KRW_ORDER = 100000` (trading_bot.py line 366). -/
def MIN_KRW_ORDER : ℚ := 100000

/-- Python 3 `round(q)`: round half to even. -/
def pyRound (q : ℚ) : ℤ :=
  if q - ⌊q⌋ < 1 / 2 then ⌊q⌋
  else if (1 : ℚ) / 2 < q - ⌊q⌋ then ⌊q⌋ + 1
  else if (2 : ℤ) ∣ ⌊q⌋ then ⌊q⌋ else ⌊q⌋ + 1

/-- Python 3 `round(q, 8)`: round half to even at the eighth decimal. -/
def pyRound8 (q : ℚ) : ℚ :=
  (pyRound (q * 100000000) : ℚ) / 100000000

/-- The order-execution outcome of one `check_and_trade` cycle (trading_bot.py
lines 528-711), stripped of I/O: which branch resolves the cycle, and the
parameters of the order intent it submits when one is submitted. -/
inductive TradeAction where
  | buySkipped
  | buyOrder (buy_amount : ℚ) (limit_price : ℤ) (quantity : ℚ)
  | sellOrder (limit_price : ℤ) (quantity : ℚ)
  | sellSkipped
  | holdPosition
  | abortNoPrice
deriving DecidableEq, Repr

/-- The trade-execution logic of `check_and_trade` (trading_bot.py lines
520-711) as a function of the computed signal, the fetched balances and the
quoted price: BUY when `latest_signal == 1` regardless of holdings (skip below
`MIN_KRW_ORDER`, size = 50% of the KRW balance, limit = `round(price*0.998)`,
quantity = `round(amount/limit, 8)`); SELL when `latest_signal == 0` and
`coin_balance > MIN_BTC_HOLDING` (skip when `coin_balance*price` is below
`MIN_KRW_ORDER`, else sell the entire `coin_balance`); otherwise hold. -/
def check_and_trade_action (latest_signal : Option ℤ) (krw_available coin_balance : ℚ)
    (current_price : Option ℚ) : TradeAction :=
  let is_holding_coin := MIN_BTC_HOLDING < coin_balance
  if latest_signal = some 1 then
    if krw_available < MIN_KRW_ORDER then .buySkipped
    else
      let buy_amount := krw_available * (1 / 2)
      match current_price with
      | none => .abortNoPrice
      | some p =>
          let limit_price := pyRound (p * (998 / 1000))
          let quantity := pyRound8 (buy_amount / (limit_price : ℚ))
          .buyOrder buy_amount limit_price quantity
  else if latest_signal = some 0 ∧ is_holding_coin then
    match current_price with
    | none => .abortNoPrice
    | some p =>
        let limit_price := pyRound (p * (998 / 1000))
        let estimated_value := coin_balance * p
        if MIN_KRW_ORDER ≤ estimated_value then .sellOrder limit_price coin_balance
        else .sellSkipped
  else .holdPosition

example : check_and_trade_action (some 1) 1000000 0 (some 100000000) =
    .buyOrder 500000 99800000 (501002 / 100000000) := by
  norm_num [check_and_trade_action, MIN_KRW_ORDER, pyRound, pyRound8]
example : check_and_trade_action (some 1) 50000 (1 / 100) (some 100000000) =
    .buySkipped := by
  norm_num [check_and_trade_action, MIN_KRW_ORDER]

/- ===================== runs_indicator.py : runs_trend_indicator ===================== -/

/-- `np.sign`. -/
def signQ (q : ℚ) : ℚ :=
  if 0 < q then 1 else if q < 0 then -1 else 0

/-- `runs_trend_indicator(close, lookback)` (runs_indicator.py lines 38-61),
parameterised by the `runs_test` statistic imported from the (absent)
runs_test module, modelled as an arbitrary total function that may return NaN.
`change_sign` is `np.sign(close.diff())` (its first entry is NaN); for
`i ∈ [lookback, len)` the window `change_sign[i-lookback+1 : i+1]` is taken,
NaNs are filtered out, and `runs_test` is applied when at least two
observations remain. -/
def runs_trend_indicator (runs_test : List ℚ → Option ℚ)
    (close : List ℚ) (lookback : ℤ) : List (Option ℚ) :=
  if lookback ≤ 1 ∨ (close.length : ℤ) < lookback then
    close.map (fun _ => none)
  else
    let lb := lookback.toNat
    let change_sign : List (Option ℚ) :=
      (List.range close.length).map
        (fun i => if i = 0 then none else some (signQ (close.getD i 0 - close.getD (i - 1) 0)))
    (List.range close.length).map (fun i =>
      if lb ≤ i then
        let segment := (change_sign.drop (i - lb + 1)).take lb
        let segment_no_nans := segment.filterMap id
        if 2 ≤ segment_no_nans.length then runs_test segment_no_nans else none
      else none)

example : runs_trend_indicator (fun s => some (s.length : ℚ)) [1, 2, 3] 5 =
    [none, none, none] := by decide
example : runs_trend_indicator (fun s => some (s.length : ℚ)) [1, 2, 3, 2] 2 =
    [none, none, some 2, some 2] := by decide

/- ===================== proof infrastructure ===================== -/

/-- Trades do not overlap: one exits no later than the next enters. -/
def TradeRel (a b : Trade) : Prop :=
  a.exit_time ≤ b.entry_time

/-- Invariant maintained by the scan loop of `get_trades_from_signal` after
processing the first `i` signal values:  `lastSig` is the previous signal
value (0 before the first iteration), completed trades have strictly
increasing lifetimes, do not overlap, and exit at already-scanned bars, an
open trade was opened at an already-scanned bar whose signal value is 1 and
no completed trade exits after its entry, and a previous signal value of 1
guarantees an open trade. -/
def LoopInv (idx : List ℕ) (cl sig : List ℚ) (i : ℕ) (lastSig : ℚ)
    (openTr : Option (ℕ × ℚ)) (acc : List Trade) : Prop :=
  i ≤ sig.length ∧
  ((i = 0 ∧ lastSig = 0) ∨ (1 ≤ i ∧ lastSig = sig.getD (i - 1) 0)) ∧
  (∀ t ∈ acc, t.entry_time < t.exit_time) ∧
  List.Chain' TradeRel acc ∧
  (∀ t ∈ acc, ∃ m, m < i ∧ m < sig.length ∧ t.exit_time = idx.getD m 0) ∧
  (∀ et ep, openTr = some (et, ep) →
    (∃ k, k < i ∧ k < sig.length ∧ sig.getD k 0 = 1 ∧
      et = idx.getD k 0 ∧ ep = cl.getD k 0) ∧
    ∀ t ∈ acc, t.exit_time ≤ et) ∧
  (lastSig = 1 → openTr ≠ none)

/- ===================== helper lemmas ===================== -/

theorem listMax_isSome (l : List ℚ) (h : l ≠ []) : ∃ m, listMax l = some m := by
  cases l with
  | nil => exact absurd rfl h
  | cons x xs => cases hm : listMax xs <;> simp [listMax, hm]

theorem listMin_isSome (l : List ℚ) (h : l ≠ []) : ∃ m, listMin l = some m := by
  cases l with
  | nil => exact absurd rfl h
  | cons x xs => cases hm : listMin xs <;> simp [listMin, hm]

theorem listMin_eq_none (l : List ℚ) (h : listMin l = none) : l = [] := by
  cases l with
  | nil => rfl
  | cons x xs => cases hm : listMin xs <;> simp [listMin, hm] at h

theorem listMax_eq_none (l : List ℚ) (h : listMax l = none) : l = [] := by
  cases l with
  | nil => rfl
  | cons x xs => cases hm : listMax xs <;> simp [listMax, hm] at h

theorem listMin_le_listMax (l : List ℚ) :
    ∀ {a b : ℚ}, listMin l = some a → listMax l = some b → a ≤ b := by
  induction l with
  | nil => intro a b h; simp [listMin] at h
  | cons x xs ih =>
    intro a b hmin hmax
    cases hmn : listMin xs with
    | none =>
      have hxs : xs = [] := listMin_eq_none xs hmn
      subst hxs
      simp [listMin, listMax] at hmin hmax
      rw [← hmin, ← hmax]
    | some mn =>
      cases hmx : listMax xs with
      | none =>
        have hxs : xs = [] := listMax_eq_none xs hmx
        subst hxs
        simp [listMin] at hmn
      | some mx =>
        simp [listMin, hmn] at hmin
        simp [listMax, hmx] at hmax
        rw [← hmin, ← hmax]
        exact le_trans (min_le_left x mn) (le_max_left x mx)

theorem windowSlice_ne_nil (xs : List ℚ) (lo len : ℕ)
    (hlen : 1 ≤ len) (hlo : lo < xs.length) : windowSlice xs lo len ≠ [] := by
  unfold windowSlice
  cases hd : xs.drop lo with
  | nil => rw [List.drop_eq_nil_iff] at hd; omega
  | cons a t =>
    cases len with
    | zero => omega
    | succ k => simp

theorem upperAt_isSome (xs : List ℚ) (lookback i : ℕ) (h2 : 2 ≤ lookback)
    (hi : lookback - 1 ≤ i) (hx : i < xs.length) :
    ∃ u, upperAt xs lookback i = some u := by
  unfold upperAt
  rw [if_pos hi]
  exact listMax_isSome _ (windowSlice_ne_nil _ _ _ (by omega) (by omega))

theorem lowerAt_isSome (xs : List ℚ) (lookback i : ℕ) (h2 : 2 ≤ lookback)
    (hi : lookback - 1 ≤ i) (hx : i < xs.length) :
    ∃ l, lowerAt xs lookback i = some l := by
  unfold lowerAt
  rw [if_pos hi]
  exact listMin_isSome _ (windowSlice_ne_nil _ _ _ (by omega) (by omega))

theorem lowerAt_le_upperAt (xs : List ℚ) (lookback i : ℕ) {u l : ℚ}
    (hu : upperAt xs lookback i = some u) (hl : lowerAt xs lookback i = some l) :
    l ≤ u := by
  unfold upperAt at hu
  unfold lowerAt at hl
  by_cases h : lookback - 1 ≤ i
  · rw [if_pos h] at hu hl
    exact listMin_le_listMax _ hl hu
  · rw [if_neg h] at hu
    cases hu

theorem sorted_getD_lt (l : List ℕ) (h : l.Pairwise (· < ·)) {a b : ℕ}
    (hab : a < b) (hb : b < l.length) : l.getD a 0 < l.getD b 0 := by
  have ha : a < l.length := lt_trans hab hb
  rw [List.getD_eq_getElem l 0 ha, List.getD_eq_getElem l 0 hb]
  exact List.pairwise_iff_getElem.mp h a b ha hb hab

theorem sorted_getD_le (l : List ℕ) (h : l.Pairwise (· < ·)) {a b : ℕ}
    (hab : a ≤ b) (hb : b < l.length) : l.getD a 0 ≤ l.getD b 0 := by
  rcases Nat.eq_or_lt_of_le hab with rfl | h2
  · exact le_refl _
  · exact le_of_lt (sorted_getD_lt l h h2 hb)

theorem getD_map_range {α : Type} (f : ℕ → α) (n j : ℕ) (hj : j < n) (d : α) :
    ((List.range n).map f).getD j d = f j := by
  rw [List.getD_eq_getElem _ _ (by simpa using hj)]
  simp

theorem getD_map_of_lt {α β : Type} (f : α → β) (ys : List α) (j : ℕ)
    (hj : j < ys.length) (d : β) (e : α) :
    (ys.map f).getD j d = f (ys.getD j e) := by
  rw [List.getD_eq_getElem _ _ (by simpa using hj), List.getD_eq_getElem _ _ hj]
  simp

theorem ffillAux_length (last : Option ℚ) (xs : List (Option ℚ)) :
    (ffillAux last xs).length = xs.length := by
  induction xs generalizing last with
  | nil => rfl
  | cons o rest ih => cases o <;> simp [ffillAux, ih]

theorem ffill_length (xs : List (Option ℚ)) : (ffill xs).length = xs.length :=
  ffillAux_length none xs

theorem patchFirst_length (xs : List (Option ℚ)) :
    (patchFirst xs).length = xs.length := by
  cases xs with
  | nil => rfl
  | cons o rest => cases o <;> rfl

theorem donchian_breakout_length (xs : List ℚ) (lookback : ℕ) :
    (donchian_breakout xs lookback).length = xs.length := by
  unfold donchian_breakout fillna0
  rw [List.length_map, patchFirst_length, ffill_length, List.length_map,
    List.length_range]

theorem ffillAux_mem (last : Option ℚ) (xs : List (Option ℚ))
    (hl : last = none ∨ last = some 0 ∨ last = some 1)
    (hx : ∀ o ∈ xs, o = none ∨ o = some 0 ∨ o = some 1) :
    ∀ o ∈ ffillAux last xs, o = none ∨ o = some 0 ∨ o = some 1 := by
  induction xs generalizing last with
  | nil => intro o ho; simp [ffillAux] at ho
  | cons o rest ih =>
    cases o with
    | none =>
      intro p hp
      rcases List.mem_cons.mp hp with rfl | hp2
      · exact hl
      · exact ih last hl (fun q hq => hx q (List.mem_cons_of_mem _ hq)) p hp2
    | some v =>
      intro p hp
      have hv : some v = none ∨ some v = some 0 ∨ some v = some 1 :=
        hx (some v) (List.mem_cons_self _ _)
      rcases List.mem_cons.mp hp with rfl | hp2
      · exact hv
      · exact ih (some v) hv (fun q hq => hx q (List.mem_cons_of_mem _ hq)) p hp2

theorem rawSignal_cases (xs : List ℚ) (lookback i : ℕ) :
    rawSignal xs lookback i = none ∨ rawSignal xs lookback i = some 0 ∨
      rawSignal xs lookback i = some 1 := by
  unfold rawSignal
  split_ifs <;> simp

theorem rawSignal_warmup (xs : List ℚ) (lookback j : ℕ) (hj : j < lookback - 1) :
    rawSignal xs lookback j = none := by
  have h : ¬ (lookback - 1 ≤ j) := by omega
  simp [rawSignal, breachLower, breachUpper, upperAt, lowerAt, h]

theorem ffillAux_prefix_none : ∀ (xs : List (Option ℚ)) (k : ℕ),
    (∀ j, j < k → xs.getD j (some 0) = none) →
    ∀ j, j < k → (ffillAux none xs).getD j (some 0) = none := by
  intro xs
  induction xs with
  | nil =>
    intro k h j hj
    exact absurd (h j hj) (by simp)
  | cons o rest ih =>
    intro k h j hj
    have h0 : o = none := by
      have := h 0 (Nat.lt_of_le_of_lt (Nat.zero_le j) hj)
      simpa using this
    subst h0
    show (none :: ffillAux none rest).getD j (some 0) = none
    cases j with
    | zero => rfl
    | succ j2 =>
      show (ffillAux none rest).getD j2 (some 0) = none
      refine ih (k - 1) ?_ j2 (by omega)
      intro j3 hj3
      have := h (j3 + 1) (by omega)
      simpa using this

theorem patchFirst_getD_of_none (ys : List (Option ℚ)) (j : ℕ)
    (h : ys.getD j (some 0) = none) :
    (patchFirst ys).getD j (some 0) = none ∨
      (patchFirst ys).getD j (some 0) = some 0 := by
  cases ys with
  | nil => right; rfl
  | cons f0 rest =>
    cases j with
    | zero =>
      cases f0 with
      | none => right; rfl
      | some v => exact absurd h (by simp)
    | succ j2 =>
      cases f0 with
      | none => left; exact h
      | some v => left; exact h

/- ===================== claim C5 ===================== -/

/-- C5: for every lookback ≥ 2 and every non-empty close series, the signal
series produced by `donchian_breakout` has length equal to the input length,
every emitted value is 0 or 1 (never NaN), and every bar before the warm-up
window — a position below `lookback - 1`, where the shifted channel is still
undefined — resolves to 0 (flat). -/
theorem donchian_breakout_total (xs : List ℚ) (lookback : ℕ)
    (h2 : 2 ≤ lookback) (hne : xs ≠ []) :
    (donchian_breakout xs lookback).length = xs.length ∧
    (∀ v ∈ donchian_breakout xs lookback, v = 0 ∨ v = 1) ∧
    (∀ i, i < lookback - 1 → i < xs.length →
      (donchian_breakout xs lookback).getD i 9 = 0) := by
  refine ⟨donchian_breakout_length xs lookback, ?_, ?_⟩
  · intro v hv
    unfold donchian_breakout fillna0 at hv
    rcases List.mem_map.mp hv with ⟨o, ho, rfl⟩
    have hraw : ∀ p ∈ (List.range xs.length).map (rawSignal xs lookback),
        p = none ∨ p = some 0 ∨ p = some 1 := by
      intro p hp
      rcases List.mem_map.mp hp with ⟨j, hj, rfl⟩
      exact rawSignal_cases xs lookback j
    have hffill : ∀ p ∈ ffill ((List.range xs.length).map (rawSignal xs lookback)),
        p = none ∨ p = some 0 ∨ p = some 1 :=
      ffillAux_mem none _ (Or.inl rfl) hraw
    have hpatch : o = none ∨ o = some 0 ∨ o = some 1 := by
      rcases hF : ffill ((List.range xs.length).map (rawSignal xs lookback)) with
        _ | ⟨f0, rest⟩
      · rw [hF] at ho
        simp [patchFirst] at ho
      · rw [hF] at ho
        cases f0 with
        | none =>
          rcases List.mem_cons.mp ho with rfl | h3
          · exact Or.inr (Or.inl rfl)
          · exact hffill o (by rw [hF]; exact List.mem_cons_of_mem _ h3)
        | some v2 =>
          exact hffill o (by rw [hF]; exact ho)
    rcases hpatch with rfl | rfl | rfl <;> simp
  · intro i hi hin
    unfold donchian_breakout fillna0
    have hlen1 : i <
        (patchFirst (ffill ((List.range xs.length).map (rawSignal xs lookback)))).length := by
      rw [patchFirst_length, ffill_length, List.length_map, List.length_range]
      exact hin
    rw [getD_map_of_lt _ _ i hlen1 9 (some 0)]
    have hmid : (ffill ((List.range xs.length).map (rawSignal xs lookback))).getD i
        (some 0) = none := by
      refine ffillAux_prefix_none _ (min (lookback - 1) xs.length) ?_ i (by omega)
      intro j2 hj2
      rw [getD_map_range _ _ _ (by omega)]
      exact rawSignal_warmup xs lookback j2 (by omega)
    rcases patchFirst_getD_of_none _ i hmid with h | h <;> rw [h] <;> rfl

/-- C5 witness: the theorem applied to the spec's exit-scenario series. -/
theorem donchian_breakout_total_w :
    (2 ≤ 3) ∧ ([100, 110, 120, 90, 95] : List ℚ) ≠ [] ∧
    (donchian_breakout [100, 110, 120, 90, 95] 3).length =
      ([100, 110, 120, 90, 95] : List ℚ).length :=
  ⟨by norm_num, by simp,
    (donchian_breakout_total [100, 110, 120, 90, 95] 3 (by norm_num) (by simp)).1⟩

/- ===================== claim C2 ===================== -/

/-- C2 counterexample: a series of exactly `lookback` candles — fewer than
`lookback + 1` — on which `calculate_donchian_signal` returns the Buy
decision rather than the insufficient-data outcome: the shift/exclude-current
rule needs only `lookback` candles, not `lookback + 1`. -/
theorem live_signal_short_series_buys :
    ([(⟨5, 5, 5⟩ : Candle), ⟨7, 7, 7⟩] : List Candle).length < 2 + 1 ∧
    calculate_donchian_signal [⟨5, 5, 5⟩, ⟨7, 7, 7⟩] 2 = .buy := by
  constructor
  · decide
  · decide

/-- C2 (amended): for lookback ≥ 2, `calculate_donchian_signal` reports
insufficient data exactly when the series has fewer than `lookback` candles
(not `lookback + 1`); with at least `lookback` candles the guard passes, the
shifted channel bands are defined (never NaN), and the outcome is one of
Buy / Sell / Hold. -/
theorem live_signal_insufficient_data (df : List Candle) (lookback : ℕ)
    (h2 : 2 ≤ lookback) :
    (df.length < lookback → calculate_donchian_signal df lookback = .insufficientData) ∧
    (lookback ≤ df.length →
      calculate_donchian_signal df lookback ≠ .insufficientData ∧
      calculate_donchian_signal df lookback ≠ .bandsNotReady) := by
  constructor
  · intro h
    unfold calculate_donchian_signal
    rw [if_pos h]
  · intro h
    unfold calculate_donchian_signal
    rw [if_neg (by omega)]
    obtain ⟨u, hu⟩ := upperAt_isSome (df.map Candle.high) lookback (df.length - 1) h2
      (by omega) (by rw [List.length_map]; omega)
    obtain ⟨l, hl⟩ := lowerAt_isSome (df.map Candle.low) lookback (df.length - 1) h2
      (by omega) (by rw [List.length_map]; omega)
    rw [hu, hl]
    constructor <;> (dsimp only; split_ifs <;> simp)

/-- C2 witness: the amended theorem applied to one- and two-candle series at
lookback 2. -/
theorem live_signal_insufficient_data_w :
    (2 ≤ 2) ∧
    calculate_donchian_signal [(⟨5, 5, 5⟩ : Candle)] 2 = .insufficientData ∧
    calculate_donchian_signal [(⟨5, 5, 5⟩ : Candle), ⟨6, 6, 6⟩] 2 ≠ .insufficientData :=
  ⟨by norm_num,
    (live_signal_insufficient_data [⟨5, 5, 5⟩] 2 (by norm_num)).1 (by simp),
    ((live_signal_insufficient_data [⟨5, 5, 5⟩, ⟨6, 6, 6⟩] 2 (by norm_num)).2 (by simp)).1⟩

/- ===================== claim C1 ===================== -/

/-- C1 counterexample: on two candles whose highs and lows differ from their
closes, the live channel (rolling max of highs) differs from the backtest
channel (rolling max of closes), and the live decision on the final bar
(Hold, returned as None) differs from the signal generator's last-bar
decision (Buy) on the same candles even though both channels are defined. -/
theorem live_channel_differs_from_backtest :
    upperAt (([(⟨10, 1, 5⟩ : Candle), ⟨7, 7, 7⟩]).map Candle.high) 2 1 = some 10 ∧
    upperAt (([(⟨10, 1, 5⟩ : Candle), ⟨7, 7, 7⟩]).map Candle.close) 2 1 = some 5 ∧
    (calculate_donchian_signal [⟨10, 1, 5⟩, ⟨7, 7, 7⟩] 2).toValue = none ∧
    rawSignal (([(⟨10, 1, 5⟩ : Candle), ⟨7, 7, 7⟩]).map Candle.close) 2
      (([(⟨10, 1, 5⟩ : Candle), ⟨7, 7, 7⟩]).length - 1) = some 1 := by
  refine ⟨by decide, by decide, by decide, by decide⟩

/-- C1 (amended): the live decision engine computes the final bar's channel
from the rolling max of the prior `lookback - 1` highs and rolling min of the
prior lows (shifted by one bar), not from closes as the backtest signal
generator does; whenever every candle's high and low coincide with its close
(so the two channels agree), the live Buy/Sell/Hold decision on the final bar
equals the signal generator's raw last-bar decision on the same candles. -/
theorem live_matches_backtest_on_close_candles (df : List Candle) (lookback : ℕ)
    (h2 : 2 ≤ lookback) (hn : lookback ≤ df.length)
    (hflat : ∀ c ∈ df, c.high = c.close ∧ c.low = c.close) :
    (calculate_donchian_signal df lookback).toValue =
      rawSignal (df.map Candle.close) lookback (df.length - 1) := by
  have hh : df.map Candle.high = df.map Candle.close :=
    List.map_congr_left (fun c hc => (hflat c hc).1)
  have hl2 : df.map Candle.low = df.map Candle.close :=
    List.map_congr_left (fun c hc => (hflat c hc).2)
  unfold calculate_donchian_signal
  rw [if_neg (by omega), hh, hl2]
  obtain ⟨u, hu⟩ := upperAt_isSome (df.map Candle.close) lookback (df.length - 1) h2
    (by omega) (by rw [List.length_map]; omega)
  obtain ⟨l, hl⟩ := lowerAt_isSome (df.map Candle.close) lookback (df.length - 1) h2
    (by omega) (by rw [List.length_map]; omega)
  have hlu : l ≤ u := lowerAt_le_upperAt _ _ _ hu hl
  rw [hu, hl]
  unfold rawSignal breachUpper breachLower
  rw [hu, hl]
  dsimp only
  by_cases hgt : u < (df.map Candle.close).getD (df.length - 1) 0
  · have hnlt : ¬ ((df.map Candle.close).getD (df.length - 1) 0 < l) := by
      intro hcl
      exact absurd (lt_trans hgt (lt_of_lt_of_le hcl hlu)) (lt_irrefl u)
    rw [if_pos hgt]
    rw [decide_eq_false hnlt, decide_eq_true hgt]
    rfl
  · by_cases hlt : (df.map Candle.close).getD (df.length - 1) 0 < l
    · rw [if_neg hgt, if_pos hlt]
      rw [decide_eq_true hlt]
      rfl
    · rw [if_neg hgt, if_neg hlt]
      rw [decide_eq_false hlt, decide_eq_false hgt]
      rfl

/-- C1 witness: the amended theorem applied to two candles with
high = low = close. -/
theorem live_matches_backtest_on_close_candles_w :
    (2 ≤ 2) ∧
    (calculate_donchian_signal [(⟨5, 5, 5⟩ : Candle), ⟨7, 7, 7⟩] 2).toValue =
      rawSignal (([(⟨5, 5, 5⟩ : Candle), ⟨7, 7, 7⟩]).map Candle.close) 2
        (([(⟨5, 5, 5⟩ : Candle), ⟨7, 7, 7⟩]).length - 1) :=
  ⟨by norm_num,
    live_matches_backtest_on_close_candles [⟨5, 5, 5⟩, ⟨7, 7, 7⟩] 2 (by norm_num)
      (by simp) (by decide)⟩

/- ===================== claim C3 ===================== -/

/-- C3: on a Buy decision (signal 1) the execution logic proceeds whenever the
available KRW balance is at least `MIN_KRW_ORDER` (100,000), for every held
coin amount — the holding status is never consulted on the buy path — and the
buy intent commits exactly 50% of the available KRW balance; below the
minimum, the outcome is the Skipped branch and no order is submitted. -/
theorem buy_execution (krw coin p : ℚ) :
    (MIN_KRW_ORDER ≤ krw →
      check_and_trade_action (some 1) krw coin (some p) =
        .buyOrder (krw * (1 / 2)) (pyRound (p * (998 / 1000)))
          (pyRound8 (krw * (1 / 2) / ((pyRound (p * (998 / 1000)) : ℤ) : ℚ)))) ∧
    (krw < MIN_KRW_ORDER →
      check_and_trade_action (some 1) krw coin (some p) = .buySkipped) := by
  unfold check_and_trade_action
  constructor
  · intro h
    rw [if_pos rfl, if_neg (not_lt.mpr h)]
  · intro h
    rw [if_pos rfl, if_pos h]

/-- C3 witness: the spec's buy-sizing scenario — balance 1,000,000 commits
500,000; balance 50,000 is skipped — at a held amount of 0.01 coin in both
cases. -/
theorem buy_execution_w :
    (MIN_KRW_ORDER ≤ (1000000 : ℚ)) ∧ ((50000 : ℚ) < MIN_KRW_ORDER) ∧
    check_and_trade_action (some 1) 1000000 (1 / 100) (some 100000000) =
      .buyOrder 500000 (pyRound ((100000000 : ℚ) * (998 / 1000)))
        (pyRound8 ((1000000 : ℚ) * (1 / 2) /
          ((pyRound ((100000000 : ℚ) * (998 / 1000)) : ℤ) : ℚ))) ∧
    check_and_trade_action (some 1) 50000 (1 / 100) (some 100000000) = .buySkipped := by
  refine ⟨by norm_num [MIN_KRW_ORDER], by norm_num [MIN_KRW_ORDER], ?_, ?_⟩
  · have h := (buy_execution 1000000 (1 / 100) 100000000).1 (by norm_num [MIN_KRW_ORDER])
    rw [h]
    norm_num
  · exact (buy_execution 50000 (1 / 100) 100000000).2 (by norm_num [MIN_KRW_ORDER])

/- ===================== claim C4 ===================== -/

/-- C4: on a Sell decision (signal 0) an order is attempted exactly when the
held amount exceeds the dust threshold `MIN_BTC_HOLDING` (0.00005) and the
estimated value (amount times current price) reaches `MIN_KRW_ORDER`
(100,000); the submitted sell quantity is always the entire held amount; at or
below dust the cycle resolves to the hold branch and below the minimum value
to the skip branch, with no order submitted either way. -/
theorem sell_execution (krw coin p : ℚ) :
    (MIN_BTC_HOLDING < coin → MIN_KRW_ORDER ≤ coin * p →
      check_and_trade_action (some 0) krw coin (some p) =
        .sellOrder (pyRound (p * (998 / 1000))) coin) ∧
    (coin ≤ MIN_BTC_HOLDING →
      check_and_trade_action (some 0) krw coin (some p) = .holdPosition) ∧
    (MIN_BTC_HOLDING < coin → coin * p < MIN_KRW_ORDER →
      check_and_trade_action (some 0) krw coin (some p) = .sellSkipped) ∧
    (∀ lp q, check_and_trade_action (some 0) krw coin (some p) = .sellOrder lp q →
      MIN_BTC_HOLDING < coin ∧ MIN_KRW_ORDER ≤ coin * p ∧ q = coin) := by
  unfold check_and_trade_action
  have hne : ¬ ((some 0 : Option ℤ) = some 1) := by decide
  rw [if_neg hne]
  refine ⟨?_, ?_, ?_, ?_⟩
  · intro h1 hv
    rw [if_pos ⟨rfl, h1⟩]
    dsimp only
    rw [if_pos hv]
  · intro h1
    rw [if_neg (fun hh => absurd hh.2 (not_lt.mpr h1))]
  · intro h1 hv
    rw [if_pos ⟨rfl, h1⟩]
    dsimp only
    rw [if_neg (not_le.mpr hv)]
  · intro lp q h
    by_cases h1 : MIN_BTC_HOLDING < coin
    · rw [if_pos ⟨rfl, h1⟩] at h
      dsimp only at h
      by_cases hv : MIN_KRW_ORDER ≤ coin * p
      · rw [if_pos hv] at h
        injection h with h2 h3
        exact ⟨h1, hv, h3.symm⟩
      · rw [if_neg hv] at h
        exact TradeAction.noConfusion h
    · rw [if_neg (fun hh => absurd hh.2 h1)] at h
      exact TradeAction.noConfusion h

/-- C4 witness: the spec's sell-all scenario — holding 0.01 coin worth
200,000 KRW sells the entire 0.01. -/
theorem sell_execution_w :
    (MIN_BTC_HOLDING < (1 / 100 : ℚ)) ∧ (MIN_KRW_ORDER ≤ (1 / 100 : ℚ) * 20000000) ∧
    check_and_trade_action (some 0) 0 (1 / 100) (some 20000000) =
      .sellOrder (pyRound ((20000000 : ℚ) * (998 / 1000))) (1 / 100) :=
  ⟨by norm_num [MIN_BTC_HOLDING], by norm_num [MIN_KRW_ORDER],
    (sell_execution 0 (1 / 100) 20000000).1 (by norm_num [MIN_BTC_HOLDING])
      (by norm_num [MIN_KRW_ORDER])⟩

/- ===================== claim C9 ===================== -/

/-- C9 counterexample: the non-empty single-return series [0.05] has no
return below the default target 0, yet `calculate_sortino_ratio` reports NaN
(the `len < 2` guard), not infinity. -/
theorem sortino_single_return_nan :
    calculate_sortino_ratio [1 / 20] 0 0 = .nan ∧
    ([1 / 20] : List ℚ) ≠ [] ∧
    (∀ r ∈ ([1 / 20] : List ℚ), ¬ r < 0) := by
  refine ⟨?_, by simp, ?_⟩
  · norm_num [calculate_sortino_ratio]
  · intro r hr
    rcases List.mem_singleton.mp hr with rfl
    norm_num

/-- C9 (amended): for a returns series with at least two elements (the guard
`len < 2` yields NaN even when non-empty) and the default risk-free rate and
target 0: the ratio is infinite when no return is below target; NaN when
exactly one return is below target (sample std undefined) or when the
below-target returns have zero sample variance; and otherwise the finite
value mean(returns) divided by the sample standard deviation (the square root
of `sampleVar`) of the below-target returns. -/
theorem sortino_cases (returns : List ℚ) (h2 : 2 ≤ returns.length) :
    (returns.filter (fun r => r < 0) = [] →
      calculate_sortino_ratio returns 0 0 = .inf) ∧
    ((returns.filter (fun r => r < 0)).length = 1 →
      calculate_sortino_ratio returns 0 0 = .nan) ∧
    (2 ≤ (returns.filter (fun r => r < 0)).length →
      sampleVar (returns.filter (fun r => r < 0)) = 0 →
      calculate_sortino_ratio returns 0 0 = .nan) ∧
    (2 ≤ (returns.filter (fun r => r < 0)).length →
      sampleVar (returns.filter (fun r => r < 0)) ≠ 0 →
      calculate_sortino_ratio returns 0 0 =
        .val (seriesMean returns) (sampleVar (returns.filter (fun r => r < 0)))) := by
  unfold calculate_sortino_ratio
  rw [if_neg (by omega)]
  refine ⟨?_, ?_, ?_, ?_⟩
  · intro h1
    simp only [h1]
    rfl
  · intro h1
    have hne : ¬ (returns.filter (fun r => r < 0)).isEmpty = true := by
      rw [List.isEmpty_iff_length_eq_zero]
      omega
    rw [if_neg hne, if_pos (by omega)]
  · intro h1 hvar
    have hne : ¬ (returns.filter (fun r => r < 0)).isEmpty = true := by
      rw [List.isEmpty_iff_length_eq_zero]
      omega
    rw [if_neg hne, if_neg (by omega), if_pos hvar]
  · intro h1 hvar
    have hne : ¬ (returns.filter (fun r => r < 0)).isEmpty = true := by
      rw [List.isEmpty_iff_length_eq_zero]
      omega
    rw [if_neg hne, if_neg (by omega), if_neg hvar, sub_zero]

/-- C9 witness: the amended theorem applied to [1, -1, -2], whose two
downside returns have sample variance 1/2. -/
theorem sortino_cases_w :
    (2 ≤ ([1, -1, -2] : List ℚ).length) ∧
    calculate_sortino_ratio [1, -1, -2] 0 0 =
      .val (seriesMean [1, -1, -2])
        (sampleVar (([1, -1, -2] : List ℚ).filter (fun r => r < 0))) :=
  ⟨by norm_num,
    (sortino_cases [1, -1, -2] (by norm_num)).2.2.2
      (by norm_num [List.filter])
      (by norm_num [sampleVar, seriesMean, List.filter])⟩

/- ===================== claim C10 ===================== -/

/-- C10: `runs_trend_indicator` is total over its public interface — for every
`runs_test` statistic, close series and integer lookback it returns a series
of the input's length (on the input's index, positionally); when
`lookback ≤ 1` or the series is shorter than `lookback` the whole output is
NaN rather than an error; and the first `lookback` positions of any output
are always NaN. -/
theorem runs_trend_indicator_total (runs_test : List ℚ → Option ℚ)
    (close : List ℚ) (lookback : ℤ) :
    (runs_trend_indicator runs_test close lookback).length = close.length ∧
    (lookback ≤ 1 ∨ (close.length : ℤ) < lookback →
      ∀ o ∈ runs_trend_indicator runs_test close lookback, o = none) ∧
    (∀ i, i < close.length → (i : ℤ) < lookback →
      (runs_trend_indicator runs_test close lookback).getD i (some 0) = none) := by
  refine ⟨?_, ?_, ?_⟩
  · unfold runs_trend_indicator
    split <;> simp
  · intro h o ho
    unfold runs_trend_indicator at ho
    rw [if_pos h] at ho
    rcases List.mem_map.mp ho with ⟨x, hx, rfl⟩
    rfl
  · intro i hi hlb
    unfold runs_trend_indicator
    split
    · rw [getD_map_of_lt _ _ i hi (some 0) 0]
    · rename_i hguard
      push_neg at hguard
      rw [getD_map_range _ _ _ hi]
      dsimp only
      rw [if_neg (by omega)]

/-- C10 witness: the theorem instantiated with a concrete statistic on a
three-point series with lookback 5 (shorter than the lookback). -/
theorem runs_trend_indicator_total_w :
    (runs_trend_indicator (fun s => some (s.length : ℚ)) [1, 2, 3] 5).length =
      ([1, 2, 3] : List ℚ).length ∧
    (((([1, 2, 3] : List ℚ).length : ℤ) < 5) ∧
      ∀ o ∈ runs_trend_indicator (fun s => some (s.length : ℚ)) [1, 2, 3] 5, o = none) :=
  ⟨(runs_trend_indicator_total (fun s => some (s.length : ℚ)) [1, 2, 3] 5).1,
    by norm_num,
    (runs_trend_indicator_total (fun s => some (s.length : ℚ)) [1, 2, 3] 5).2.1
      (Or.inr (by norm_num))⟩

/- ============== trade-extractor loop: computation lemmas ============== -/

theorem tradesEntry_pos_none (idx : List ℕ) (cl : List ℚ) (i : ℕ) (cur lastSig : ℚ)
    (acc : List Trade) (h : cur = 1 ∧ lastSig ≠ 1) :
    tradesEntry idx cl i cur lastSig none acc =
      (acc, some (idx.getD i 0, cl.getD i 0)) := by
  unfold tradesEntry
  rw [if_pos h]

theorem tradesEntry_pos_some (idx : List ℕ) (cl : List ℚ) (i : ℕ) (cur lastSig : ℚ)
    (et : ℕ) (ep : ℚ) (acc : List Trade) (h : cur = 1 ∧ lastSig ≠ 1) :
    tradesEntry idx cl i cur lastSig (some (et, ep)) acc =
      (acc ++ [⟨et, ep, idx.getD (i - 1) 0, cl.getD (i - 1) 0⟩],
       some (idx.getD i 0, cl.getD i 0)) := by
  unfold tradesEntry
  rw [if_pos h]

theorem tradesEntry_neg (idx : List ℕ) (cl : List ℚ) (i : ℕ) (cur lastSig : ℚ)
    (openTr : Option (ℕ × ℚ)) (acc : List Trade) (h : ¬ (cur = 1 ∧ lastSig ≠ 1)) :
    tradesEntry idx cl i cur lastSig openTr acc = (acc, openTr) := by
  unfold tradesEntry
  rw [if_neg h]

theorem tradesExit_pos_some (idx : List ℕ) (cl : List ℚ) (i : ℕ) (cur lastSig : ℚ)
    (et : ℕ) (ep : ℚ) (acc1 : List Trade) (h : cur = 0 ∧ lastSig = 1) :
    tradesExit idx cl i cur lastSig (acc1, some (et, ep)) =
      (acc1 ++ [⟨et, ep, idx.getD i 0, cl.getD i 0⟩], none) := by
  unfold tradesExit
  rw [if_pos h]

theorem tradesExit_pos_none (idx : List ℕ) (cl : List ℚ) (i : ℕ) (cur lastSig : ℚ)
    (acc1 : List Trade) (h : cur = 0 ∧ lastSig = 1) :
    tradesExit idx cl i cur lastSig (acc1, none) = (acc1, none) := by
  unfold tradesExit
  rw [if_pos h]

theorem tradesExit_neg (idx : List ℕ) (cl : List ℚ) (i : ℕ) (cur lastSig : ℚ)
    (s1 : List Trade × Option (ℕ × ℚ)) (h : ¬ (cur = 0 ∧ lastSig = 1)) :
    tradesExit idx cl i cur lastSig s1 = s1 := by
  unfold tradesExit
  rw [if_neg h]

theorem chain'_append_singleton {α : Type} (R : α → α → Prop) (l : List α) (t : α)
    (h : List.Chain' R l) (hl : ∀ x ∈ l.getLast?, R x t) :
    List.Chain' R (l ++ [t]) := by
  rw [List.chain'_append]
  refine ⟨h, List.chain'_singleton t, ?_⟩
  intro x hx y hy
  simp at hy
  subst hy
  exact hl x hx

/-- One loop iteration of the trade extractor preserves the invariant. -/
theorem tradesStep_inv (idx : List ℕ) (cl sig : List ℚ)
    (hsort : List.Pairwise (· < ·) idx) (hlen : idx.length = sig.length)
    (i : ℕ) (cur lastSig : ℚ) (openTr : Option (ℕ × ℚ)) (acc : List Trade)
    (hi : i < sig.length) (hcur : sig.getD i 0 = cur)
    (hinv : LoopInv idx cl sig i lastSig openTr acc) :
    LoopInv idx cl sig (i + 1) cur
      (tradesStep idx cl i cur lastSig openTr acc).2
      (tradesStep idx cl i cur lastSig openTr acc).1 := by
  obtain ⟨hile, hlast, hstrict, hchain, hexit, hopen, hopen1⟩ := hinv
  have hin : i < idx.length := by omega
  unfold tradesStep
  by_cases hb1 : cur = 1 ∧ lastSig ≠ 1
  · have hb2 : ¬ (cur = 0 ∧ lastSig = 1) := by
      rintro ⟨h0, _⟩
      rw [hb1.1] at h0
      norm_num at h0
    cases openTr with
    | none =>
      rw [tradesEntry_pos_none idx cl i cur lastSig acc hb1,
        tradesExit_neg idx cl i cur lastSig _ hb2]
      refine ⟨by omega, Or.inr ⟨by omega, by simpa using hcur.symm⟩, hstrict, hchain,
        ?_, ?_, by simp⟩
      · intro t ht
        obtain ⟨m, hm1, hm2, hm3⟩ := hexit t ht
        exact ⟨m, by omega, hm2, hm3⟩
      · intro et2 ep2 h
        simp only [Option.some.injEq, Prod.mk.injEq] at h
        obtain ⟨rfl, rfl⟩ := h
        refine ⟨⟨i, by omega, hi, by rw [hcur, hb1.1], rfl, rfl⟩, ?_⟩
        intro t ht
        obtain ⟨m, hm1, hm2, hm3⟩ := hexit t ht
        rw [hm3]
        exact le_of_lt (sorted_getD_lt idx hsort hm1 hin)
    | some pr =>
      obtain ⟨et, ep⟩ := pr
      obtain ⟨⟨k, hki, hkn, hsigk, hket, hkep⟩, hacc_le⟩ := hopen et ep rfl
      have hi1 : 1 ≤ i := by omega
      have hk2 : k < i - 1 := by
        rcases hlast with ⟨hz, _⟩ | ⟨h1i, hls⟩
        · omega
        · by_contra hc
          have hk3 : k = i - 1 := by omega
          exact hb1.2 (by rw [hls, ← hk3, hsigk])
      have hi1n : i - 1 < idx.length := by omega
      rw [tradesEntry_pos_some idx cl i cur lastSig et ep acc hb1,
        tradesExit_neg idx cl i cur lastSig _ hb2]
      refine ⟨by omega, Or.inr ⟨by omega, by simpa using hcur.symm⟩, ?_, ?_, ?_, ?_,
        by simp⟩
      · intro t ht
        rcases List.mem_append.mp ht with ht2 | ht2
        · exact hstrict t ht2
        · rcases List.mem_singleton.mp ht2 with rfl
          show et < idx.getD (i - 1) 0
          rw [hket]
          exact sorted_getD_lt idx hsort hk2 hi1n
      · refine chain'_append_singleton _ _ _ hchain ?_
        intro x hx
        exact hacc_le x (List.mem_of_mem_getLast? hx)
      · intro t ht
        rcases List.mem_append.mp ht with ht2 | ht2
        · obtain ⟨m, hm1, hm2, hm3⟩ := hexit t ht2
          exact ⟨m, by omega, hm2, hm3⟩
        · rcases List.mem_singleton.mp ht2 with rfl
          exact ⟨i - 1, by omega, by omega, rfl⟩
      · intro et2 ep2 h
        simp only [Option.some.injEq, Prod.mk.injEq] at h
        obtain ⟨rfl, rfl⟩ := h
        refine ⟨⟨i, by omega, hi, by rw [hcur, hb1.1], rfl, rfl⟩, ?_⟩
        intro t ht
        rcases List.mem_append.mp ht with ht2 | ht2
        · refine le_trans (hacc_le t ht2) ?_
          rw [hket]
          exact le_of_lt (sorted_getD_lt idx hsort hki hin)
        · rcases List.mem_singleton.mp ht2 with rfl
          show idx.getD (i - 1) 0 ≤ idx.getD i 0
          exact le_of_lt (sorted_getD_lt idx hsort (by omega) hin)
  · rw [tradesEntry_neg idx cl i cur lastSig openTr acc hb1]
    by_cases hb2 : cur = 0 ∧ lastSig = 1
    · have hcur0 : cur = 0 := hb2.1
      have hc1 : ¬ (cur = 1) := by
        rw [hcur0]
        norm_num
      cases openTr with
      | none =>
        rw [tradesExit_pos_none idx cl i cur lastSig acc hb2]
        refine ⟨by omega, Or.inr ⟨by omega, by simpa using hcur.symm⟩, hstrict, hchain,
          ?_, ?_, fun h => absurd h hc1⟩
        · intro t ht
          obtain ⟨m, hm1, hm2, hm3⟩ := hexit t ht
          exact ⟨m, by omega, hm2, hm3⟩
        · intro et2 ep2 h
          cases h
      | some pr =>
        obtain ⟨et, ep⟩ := pr
        obtain ⟨⟨k, hki, hkn, hsigk, hket, hkep⟩, hacc_le⟩ := hopen et ep rfl
        rw [tradesExit_pos_some idx cl i cur lastSig et ep acc hb2]
        refine ⟨by omega, Or.inr ⟨by omega, by simpa using hcur.symm⟩, ?_, ?_, ?_,
          ?_, fun h => absurd h hc1⟩
        · intro t ht
          rcases List.mem_append.mp ht with ht2 | ht2
          · exact hstrict t ht2
          · rcases List.mem_singleton.mp ht2 with rfl
            show et < idx.getD i 0
            rw [hket]
            exact sorted_getD_lt idx hsort hki hin
        · refine chain'_append_singleton _ _ _ hchain ?_
          intro x hx
          exact hacc_le x (List.mem_of_mem_getLast? hx)
        · intro t ht
          rcases List.mem_append.mp ht with ht2 | ht2
          · obtain ⟨m, hm1, hm2, hm3⟩ := hexit t ht2
            exact ⟨m, by omega, hm2, hm3⟩
          · rcases List.mem_singleton.mp ht2 with rfl
            exact ⟨i, by omega, hi, rfl⟩
        · intro et2 ep2 h
          cases h
    · rw [tradesExit_neg idx cl i cur lastSig _ hb2]
      refine ⟨by omega, Or.inr ⟨by omega, by simpa using hcur.symm⟩, hstrict, hchain,
        ?_, ?_, ?_⟩
      · intro t ht
        obtain ⟨m, hm1, hm2, hm3⟩ := hexit t ht
        exact ⟨m, by omega, hm2, hm3⟩
      · intro et2 ep2 h
        obtain ⟨⟨k, hk1, hk2, hk3, hk4, hk5⟩, hle⟩ := hopen et2 ep2 h
        exact ⟨⟨k, by omega, hk2, hk3, hk4, hk5⟩, hle⟩
      · intro hcur1
        have hls1 : lastSig = 1 := by
          by_contra hc
          exact hb1 ⟨hcur1, hc⟩
        exact hopen1 hls1

/-- The scan loop carries the invariant from any reachable state to the end
of the signal series. -/
theorem tradesLoop_inv (idx : List ℕ) (cl sig : List ℚ)
    (hsort : List.Pairwise (· < ·) idx) (hlen : idx.length = sig.length) :
    ∀ (rest : List ℚ) (i : ℕ) (lastSig : ℚ) (openTr : Option (ℕ × ℚ))
      (acc : List Trade),
      rest = sig.drop i →
      LoopInv idx cl sig i lastSig openTr acc →
      ∃ lastF, LoopInv idx cl sig sig.length lastF
        (tradesLoop idx cl rest i lastSig openTr acc).2
        (tradesLoop idx cl rest i lastSig openTr acc).1 := by
  intro rest
  induction rest with
  | nil =>
    intro i lastSig openTr acc hdrop hinv
    have hge : sig.length ≤ i := by
      by_contra hc
      rw [List.drop_eq_getElem_cons (by omega)] at hdrop
      simp at hdrop
      omega
    have heq : i = sig.length := le_antisymm hinv.1 hge
    subst heq
    exact ⟨lastSig, hinv⟩
  | cons cur rest ih =>
    intro i lastSig openTr acc hdrop hinv
    have hlt : i < sig.length := by
      by_contra hc
      rw [List.drop_eq_nil_of_le (by omega)] at hdrop
      simp at hdrop
    rw [List.drop_eq_getElem_cons hlt] at hdrop
    injection hdrop with h1 h2
    have hcur : sig.getD i 0 = cur := by
      rw [List.getD_eq_getElem _ _ hlt, h1]
    simp only [tradesLoop]
    exact ih (i + 1) cur _ _ h2
      (tradesStep_inv idx cl sig hsort hlen i cur lastSig openTr acc hlt hcur hinv)

/-- The invariant at the start of the scan. -/
theorem tradesLoop_inv_init (idx : List ℕ) (cl sig : List ℚ) :
    LoopInv idx cl sig 0 0 none [] := by
  refine ⟨Nat.zero_le _, Or.inl ⟨rfl, rfl⟩, ?_, List.chain'_nil, ?_, ?_, ?_⟩
  · intro t ht
    simp at ht
  · intro t ht
    simp at ht
  · intro et ep h
    cases h
  · intro h
    norm_num at h

/-- The invariant holds for the completed scan of the whole signal series. -/
theorem get_trades_invariant (idx : List ℕ) (cl sig : List ℚ)
    (hsort : List.Pairwise (· < ·) idx) (hlen : idx.length = sig.length) :
    ∃ lastF, LoopInv idx cl sig sig.length lastF
      (tradesLoop idx cl sig 0 0 none []).2
      (tradesLoop idx cl sig 0 0 none []).1 :=
  tradesLoop_inv idx cl sig hsort hlen sig 0 0 none [] (List.drop_zero sig).symm
    (tradesLoop_inv_init idx cl sig)

/-- A chain of non-overlapping trades whose entries never exceed their exits
has entry times in ascending order. -/
theorem chain_entry_mono (l : List Trade) (hchain : List.Chain' TradeRel l)
    (hwe : ∀ t ∈ l, t.entry_time ≤ t.exit_time) :
    List.Chain' (fun a b => a.entry_time ≤ b.entry_time) l := by
  induction l with
  | nil => exact List.chain'_nil
  | cons a l2 ih =>
    cases l2 with
    | nil => exact List.chain'_singleton a
    | cons b l3 =>
      rw [List.chain'_cons] at hchain ⊢
      refine ⟨le_trans (hwe a (by simp)) hchain.1, ih hchain.2 ?_⟩
      intro t ht
      exact hwe t (List.mem_cons_of_mem a ht)

/- ===================== claim C6 ===================== -/

/-- C6: for every candle series (strictly increasing timestamps, closes of the
same length) and every signal series over it, the trade list returned by
`get_trades_from_signal` contains no overlapping trades — each trade's entry
time is at least the previous trade's exit time — and is ordered by entry
time ascending. -/
theorem get_trades_no_overlap (idx : List ℕ) (cl sig : List ℚ)
    (hsort : List.Pairwise (· < ·) idx)
    (hl1 : idx.length = sig.length) (hl2 : cl.length = sig.length) :
    List.Chain' (fun a b => a.exit_time ≤ b.entry_time)
      (get_trades_from_signal idx cl sig) ∧
    List.Chain' (fun a b => a.entry_time ≤ b.entry_time)
      (get_trades_from_signal idx cl sig) := by
  obtain ⟨lastF, hinv⟩ := get_trades_invariant idx cl sig hsort hl1
  unfold get_trades_from_signal
  rcases hres : tradesLoop idx cl sig 0 0 none [] with ⟨accF, openF⟩
  rw [hres] at hinv
  obtain ⟨hile, hlast, hstrict, hchain, hexit, hopen, hopen1⟩ := hinv
  cases openF with
  | none =>
    dsimp only
    exact ⟨hchain, chain_entry_mono accF hchain (fun t ht => le_of_lt (hstrict t ht))⟩
  | some pr =>
    obtain ⟨et, ep⟩ := pr
    obtain ⟨⟨k, hki, hkn, hk1, hket, hkep⟩, hle⟩ := hopen et ep rfl
    dsimp only
    have happ : List.Chain' TradeRel
        (accF ++ [⟨et, ep, idx.getD (idx.length - 1) 0, cl.getD (cl.length - 1) 0⟩]) := by
      refine chain'_append_singleton _ _ _ hchain ?_
      intro x hx
      exact hle x (List.mem_of_mem_getLast? hx)
    refine ⟨happ, chain_entry_mono _ happ ?_⟩
    intro t ht
    rcases List.mem_append.mp ht with h2 | h2
    · exact le_of_lt (hstrict t h2)
    · rcases List.mem_singleton.mp h2 with rfl
      show et ≤ idx.getD (idx.length - 1) 0
      rw [hket]
      exact sorted_getD_le idx hsort (by omega) (by omega)

/-- C6 witness: the theorem applied to a four-bar series with a single
completed trade. -/
theorem get_trades_no_overlap_w :
    List.Pairwise (· < ·) ([0, 1, 2, 3] : List ℕ) ∧
    List.Chain' (fun a b => a.exit_time ≤ b.entry_time)
      (get_trades_from_signal [0, 1, 2, 3] [10, 11, 12, 13] [0, 1, 1, 0]) :=
  ⟨by decide,
    (get_trades_no_overlap [0, 1, 2, 3] [10, 11, 12, 13] [0, 1, 1, 0]
      (by decide) rfl rfl).1⟩

/- ===================== claim C7 ===================== -/

/-- C7: if the signal series ends at value 1 (a trade still open), the
extractor closes that trade synthetically at the last available bar — its
exit time is the final timestamp and its exit price the final close — rather
than discarding it; every other returned trade satisfies
`entry_time < exit_time`, and the synthetically closed one satisfies
`entry_time ≤ exit_time` with exit at the series' final timestamp. -/
theorem get_trades_mark_to_last (idx : List ℕ) (cl sig : List ℚ)
    (hsort : List.Pairwise (· < ·) idx) (hl1 : idx.length = sig.length)
    (hl2 : cl.length = sig.length) (hne : sig ≠ [])
    (hlast1 : sig.getD (sig.length - 1) 0 = 1) :
    ∃ ts t, get_trades_from_signal idx cl sig = ts ++ [t] ∧
      t.exit_time = idx.getD (idx.length - 1) 0 ∧
      t.exit_price = cl.getD (cl.length - 1) 0 ∧
      t.entry_time ≤ t.exit_time ∧
      ∀ u ∈ ts, u.entry_time < u.exit_time := by
  obtain ⟨lastF, hinv⟩ := get_trades_invariant idx cl sig hsort hl1
  rcases hres : tradesLoop idx cl sig 0 0 none [] with ⟨accF, openF⟩
  rw [hres] at hinv
  obtain ⟨hile, hlast, hstrict, hchain, hexit, hopen, hopen1⟩ := hinv
  have hn1 : 1 ≤ sig.length := by
    cases sig with
    | nil => exact absurd rfl hne
    | cons a l => simp
  have hlastF : lastF = 1 := by
    rcases hlast with ⟨h0, _⟩ | ⟨_, hlf⟩
    · omega
    · rw [hlf]
      exact hlast1
  have hopenF : openF ≠ none := hopen1 hlastF
  cases openF with
  | none => exact absurd rfl hopenF
  | some pr =>
    obtain ⟨et, ep⟩ := pr
    obtain ⟨⟨k, hki, hkn, hk1, hket, hkep⟩, hle⟩ := hopen et ep rfl
    refine ⟨accF,
      ⟨et, ep, idx.getD (idx.length - 1) 0, cl.getD (cl.length - 1) 0⟩,
      ?_, rfl, rfl, ?_, hstrict⟩
    · unfold get_trades_from_signal
      rw [hres]
    · show et ≤ idx.getD (idx.length - 1) 0
      rw [hket]
      exact sorted_getD_le idx hsort (by omega) (by omega)

/-- C7 witness: a one-bar series whose signal is 1 yields exactly the
synthetically closed trade at that bar. -/
theorem get_trades_mark_to_last_w :
    (([1] : List ℚ) ≠ []) ∧
    (∃ ts t, get_trades_from_signal [5] [7] [1] = ts ++ [t] ∧
      t.exit_time = ([5] : List ℕ).getD (([5] : List ℕ).length - 1) 0 ∧
      t.exit_price = ([7] : List ℚ).getD (([7] : List ℚ).length - 1) 0 ∧
      t.entry_time ≤ t.exit_time ∧
      ∀ u ∈ ts, u.entry_time < u.exit_time) :=
  ⟨by simp,
    get_trades_mark_to_last [5] [7] [1] (by decide) rfl rfl (by simp) (by decide)⟩

/- ===================== claim C8 ===================== -/

/-- C8 counterexample: on signal [1, 2, 1] (the middle value outside {0,1}),
the 0→1 entry at bar 2 occurs while the bar-0 trade is still open; the
extractor raises no fault — it silently closes the open trade at the previous
bar and returns a normal, fully populated two-trade list. -/
theorem extractor_absorbs_reentry :
    get_trades_from_signal [0, 1, 2] [10, 11, 12] [1, 2, 1] =
      [⟨0, 10, 1, 11⟩, ⟨2, 12, 2, 12⟩] := by decide

/-- C8 (amended): an entry transition at the final bar while a trade is
already open is absorbed, not surfaced: for any non-{0,1} middle signal
value, the extractor closes the open trade at the previous bar, appends it
to the result, and opens a new trade at the current bar (here closed
synthetically at the series end); no invariant fault is raised. -/
theorem extractor_reentry_closes_previous (i0 i1 i2 : ℕ) (c0 c1 c2 x : ℚ)
    (hx0 : x ≠ 0) (hx1 : x ≠ 1) :
    get_trades_from_signal [i0, i1, i2] [c0, c1, c2] [1, x, 1] =
      [⟨i0, c0, i1, c1⟩, ⟨i2, c2, i2, c2⟩] := by
  unfold get_trades_from_signal
  simp only [tradesLoop, tradesStep, tradesEntry, tradesExit]
  norm_num [hx0, hx1]

/-- C8 witness: the amended theorem at middle value 5. -/
theorem extractor_reentry_closes_previous_w :
    ((5 : ℚ) ≠ 0) ∧
    get_trades_from_signal [10, 20, 30] [1, 2, 3] [1, 5, 1] =
      [⟨10, 1, 20, 2⟩, ⟨30, 3, 30, 3⟩] :=
  ⟨by norm_num,
    extractor_reentry_closes_previous 10 20 30 1 2 3 5 (by norm_num) (by norm_num)⟩

end DonchianSpec
